import Mathlib

/-!
Verification of the abbreviation-resolution pipeline in `abbr.py`
(class `Document`): markup cleanup, candidate extraction, database
search under strict/permissive match policies, and top-result selection.

The Python code is embedded shallowly:

* strings are `List Char`;
* the regexes are embedded as executable scanners whose behaviour matches
  the specific patterns used by the source (see each definition's comment);
* the two external collaborators (`tools.plurals` and the per-format
  scoring engine `parsers.adam`) are parameters of the model, constrained
  only where a claim relies on their documented contract;
* exceptions (`KeyError` from dict lookup, `AttributeError` from a missing
  `self.abbreviations`, `IndexError` from `[0]` on an empty list) are
  modelled with `Except PyError`.
-/

/-- Python exceptions that the embedded methods can raise. -/
inductive PyError : Type where
  | keyError (k : String)
  | attributeError
  | indexError
deriving DecidableEq

/-- Test whether an `Except` value is an error. -/
def isError {ε α : Type} : Except ε α → Bool
  | .error _ => true
  | .ok _ => false

/-! ## Character classes (ASCII, as in Python 2 `re` without `re.UNICODE`) -/

/-- ASCII digit, the regex class `\d`. -/
def isDigit (c : Char) : Bool :=
  48 ≤ c.toNat && c.toNat ≤ 57

/-- ASCII letter: the regex class `[a-z]` under `re.IGNORECASE`. -/
def isAsciiLetter (c : Char) : Bool :=
  (97 ≤ c.toNat && c.toNat ≤ 122) || (65 ≤ c.toNat && c.toNat ≤ 90)

/-- Word character, the regex class `\w`: letter, digit or underscore. -/
def isWordChar (c : Char) : Bool :=
  isAsciiLetter c || isDigit c || c.toNat == 95

/-- ASCII lower-casing on code points, used for `re.IGNORECASE` matching. -/
def lowerNat (c : Char) : Nat :=
  if 65 ≤ c.toNat ∧ c.toNat ≤ 90 then c.toNat + 32 else c.toNat

/-- Case-insensitive character comparison (`re.IGNORECASE`). -/
def ciCharEq (a b : Char) : Bool :=
  lowerNat a == lowerNat b

/-- Case-insensitively, does `s` start with the literal pattern `pat`?
This is `re.match` of a literal (no metacharacters) pattern under
`re.IGNORECASE`. -/
def ciStartsWith : List Char → List Char → Bool
  | [], _ => true
  | _ :: _, [] => false
  | a :: as, b :: bs => ciCharEq a b && ciStartsWith as bs

/-! ## The line grep of `search_database`

`search_database` runs `re.findall("^ABBR" ++ tail, text, re.MULTILINE|re.IGNORECASE)`
where `tail` is `".*?\n"` (permissive) or `"\t.*?\n"` (strict); both cases
are an instance of the pattern `^PRE.*?\n` for a literal newline-free `PRE`.
Under `re.MULTILINE` the anchor `^` holds exactly at the start of the text
and after each `"\n"`, and (without `re.DOTALL`) `.*?\n` extends the match
through the first newline after `PRE`, so each match is one whole
newline-terminated line whose start matches `PRE` case-insensitively.
We embed this as a scanner over the lines of the text. -/

/-- Split a text at its first newline: `some (before, after)`, or `none`
when the text contains no newline. -/
def splitAtNL : List Char → Option (List Char × List Char)
  | [] => none
  | c :: rest =>
    if c == '\n' then some ([], rest)
    else (splitAtNL rest).map (fun p => (c :: p.1, p.2))

/-- Fuelled worker for `grepScan`; the fuel only serves termination and is
always at least the length of the text, so the `0` case is unreachable. -/
def grepScanFuel (pre : List Char) : Nat → List Char → List (List Char)
  | 0, _ => []
  | n + 1, s =>
    match splitAtNL s with
    | none => []
    | some (m, rest) =>
      if ciStartsWith pre (m ++ ['\n']) then
        (m ++ ['\n']) :: grepScanFuel pre n rest
      else
        grepScanFuel pre n rest

/-- All newline-terminated lines of `s` whose start matches the literal
newline-free pattern `pre` case-insensitively, in text order: the value of
`re.findall("^PRE.*?\n", s, re.MULTILINE | re.IGNORECASE)`. -/
def grepScan (pre : List Char) (s : List Char) : List (List Char) :=
  grepScanFuel pre s.length s

/-! ## The candidate extractor `find_abbr`

`find_abbr` runs `re.findall` with the pattern `\((?P<abb>\d*[a-z]\w*)\)`
under `re.DOTALL|re.IGNORECASE|re.MULTILINE` (the last two flags only make
`[a-z]` match both cases; there are no dots or anchors in the pattern) and
collects the group `abb`.  A match is `'('`, then greedily digits, then one
letter, then greedily word characters, then `')'`; no backtracking case
survives beyond this greedy reading because a digit run can only be
shortened onto another digit and a word-character run can never end at a
`')'`.  `re.findall` scans every position and, on a match, resumes after
it; since the interior of a match contains no `'('`, resuming after the
match and resuming one character after its `'('` give the same match list,
so the scanner below advances one character at a time. -/

/-- Match the interior of `\((?P<abb>\d*[a-z]\w*)\)` against `s`, the text
just after a `'('`: the group (digits, one letter, word characters) when
the parenthesis closes properly. -/
def matchParen (s : List Char) : Option (List Char) :=
  let ds := s.takeWhile isDigit
  match s.dropWhile isDigit with
  | [] => none
  | c :: rest2 =>
    if isAsciiLetter c then
      let ws := rest2.takeWhile isWordChar
      match rest2.dropWhile isWordChar with
      | ')' :: _ => some (ds ++ c :: ws)
      | _ => none
    else none

/-- All groups found by `re.findall("\((?P<abb>\d*[a-z]\w*)\)", content, ...)`,
in text order. -/
def findAbbrScan : List Char → List (List Char)
  | [] => []
  | c :: rest =>
    if c == '(' then
      match matchParen rest with
      | some g => g :: findAbbrScan rest
      | none => findAbbrScan rest
    else findAbbrScan rest

/-- Embedding of `Document.find_abbr`: the raw regex matches, flattened
through the external `plurals` collaborator (`itertools.chain`), with
duplicates removed (`list(set(...))`; we keep first occurrences, the claims
only use membership). -/
def find_abbr (plurals : List Char → List (List Char)) (content : List Char) :
    List (List Char) :=
  ((findAbbrScan content).flatMap plurals).dedup

/-! ## The markup normalizer `cleanup`

`cleanup` runs `re.sub("<(.|\n)*?>", " ", data)`.  A match is a `'<'`
followed lazily by any characters up to the first `'>'` after it; `re.sub`
replaces each non-overlapping match, scanning left to right and advancing
one character on failure.  -/

/-- Drop everything up to and including the first `'>'`; `none` when there
is no `'>'` (so no tag can close and no match starts here). -/
def dropThroughGt : List Char → Option (List Char)
  | [] => none
  | c :: rest => if c == '>' then some rest else dropThroughGt rest

/-- Fuelled worker for `cleanup`; the fuel only serves termination and is
always at least the length of the input, so the `0` case is unreachable. -/
def cleanupFuel : Nat → List Char → List Char
  | 0, _ => []
  | _ + 1, [] => []
  | n + 1, c :: rest =>
    if c == '<' then
      match dropThroughGt rest with
      | some rest2 => ' ' :: cleanupFuel n rest2
      | none => c :: cleanupFuel n rest
    else c :: cleanupFuel n rest

/-- Embedding of `Document.cleanup`: replace every `<...>` span (lazy, the
`'>'` is the first one after the `'<'`) by one space, leave everything else
unchanged. -/
def cleanup (data : List Char) : List Char :=
  cleanupFuel data.length data

/-- Does the text contain a `'<'` that is followed, anywhere later, by a
`'>'` — i.e. a recognizable `<...>` tag span? -/
def hasTagDelim : List Char → Bool
  | [] => false
  | c :: rest => (c == '<' && decide ('>' ∈ rest)) || hasTagDelim rest

/-! ## The `Document` object and `search_database` -/

/-- One entry of the `self.parsers` registry: the scoring engine and the
field delimiter for one database format.  The engine returns scored
entries `(score, structured-fields)`, highest score first; both component
types are opaque to the core. -/
structure ParserCfg (α β : Type) where
  engine : List (List Char) → List (α × β)
  delimiter : List Char

/-- The instance state of `Document` that `search_database` reads:
`self.content` (set in `__init__` from `cleanup`), `self.db_type`,
`self.permissive`, and `self.abbreviations` (`none` until
`import_database` has been called, modelling the missing attribute). -/
structure Document : Type where
  content : List Char
  db_type : String
  permissive : Bool
  abbreviations : Option (List Char)
deriving DecidableEq

/-- The `self.parsers` dict built in `__init__`: only the key `"adam"` is
present, with engine `parsers.adam` (a parameter here) and delimiter
`'\\t'` — the two-character regex escape that matches one tab character,
hence `['\t']` in the embedding.  Lookup of any other key is a `KeyError`,
modelled as `none`. -/
def parsersFor {α β : Type} (adamEngine : List (List Char) → List (α × β)) :
    String → Option (ParserCfg α β) :=
  fun t => if t = "adam" then some ⟨adamEngine, ['\t']⟩ else none

/-- Embedding of `Document.import_database`: store the database file's
text in `self.abbreviations` (the I/O read is abstracted to its result). -/
def import_database (fileText : List Char) (d : Document) : Document :=
  { d with abbreviations := some fileText }

/-- The loop body of `search_database`, over the remaining candidate list,
threading the instance state so that (absence of) mutation is explicit.
Per candidate, in source order: build the search pattern (strict mode
looks up the delimiter first — `KeyError` on an unknown `db_type`); read
`self.abbreviations` (`AttributeError` when `import_database` was never
called); run the grep; look up and apply the engine (`KeyError` again
possible); record the `(candidate, engine results)` entry. -/
def searchLoopS {α β : Type} (reg : String → Option (ParserCfg α β))
    (d : Document) :
    List (List Char) → Except PyError (List (List Char × List (α × β)) × Document)
  | [] => .ok ([], d)
  | abbr :: rest =>
    let preE : Except PyError (List Char) :=
      if d.permissive then .ok abbr
      else
        match reg d.db_type with
        | some cfg => .ok (abbr ++ cfg.delimiter)
        | none => .error (.keyError d.db_type)
    match preE with
    | .error e => .error e
    | .ok pre =>
      match d.abbreviations with
      | none => .error .attributeError
      | some db =>
        let results := grepScan pre db
        match reg d.db_type with
        | none => .error (.keyError d.db_type)
        | some cfg =>
          match searchLoopS reg d rest with
          | .error e => .error e
          | .ok (tail, d2) => .ok ((abbr, cfg.engine results) :: tail, d2)

/-- Embedding of `Document.search_database`: for every extracted candidate,
grep the database text for matching lines (strict pattern
`"^%s" + delimiter + ".*?\n"`, permissive pattern `"^%s.*?\n"`, both with
`re.MULTILINE|re.IGNORECASE`) and store the engine's ranked results under
that candidate; returns the result map together with the final instance
state. -/
def search_database {α β : Type} (plurals : List Char → List (List Char))
    (adamEngine : List (List Char) → List (α × β)) (d : Document) :
    Except PyError (List (List Char × List (α × β)) × Document) :=
  searchLoopS (parsersFor adamEngine) d (find_abbr plurals d.content)

/-- Embedding of `Document.get_top`: `abbr_match[0][1]` — the
structured-fields component of the first entry; `IndexError` on `[]`. -/
def get_top {α β : Type} (abbr_match : List (α × β)) : Except PyError β :=
  match abbr_match with
  | [] => .error .indexError
  | e :: _ => .ok e.2

/-! ## Declarative notion of a database line, for the matcher claims -/

/-- The complete (newline-terminated) lines of a text: `IsDbLine s l`
holds when `l` is one of the lines of `s`, where a line is a newline-free
body followed by its terminating newline.  Characters after the last
newline of `s` belong to no line. -/
inductive IsDbLine : List Char → List Char → Prop where
  | head (m v : List Char) : '\n' ∉ m → IsDbLine (m ++ '\n' :: v) (m ++ ['\n'])
  | tail (m v l : List Char) : '\n' ∉ m → IsDbLine v l →
      IsDbLine (m ++ '\n' :: v) l

/-! ## Concrete instances used by witnesses and counterexamples -/

/-- Minimal instance of the external `tools.plurals` collaborator: a
pluralizer returning only the token itself, the least its contract
(a non-empty variant list containing at least the token) allows. -/
def idPl : List Char → List (List Char) := fun x => [x]

/-- Concrete scoring engine satisfying the engine contract (in
particular it maps `[]` to `[]`): each matched line becomes one entry
whose structured field is the line itself. -/
def listEngine : List (List Char) → List (Nat × List Char) :=
  fun ls => ls.map (fun l => (0, l))

/-- Database text of the spec's `GEF`/`GEFS` example. -/
def gefDb : List Char := "GEF\tfoo\nGEFS\tbar\n".toList

/-- Strict-policy document whose content mentions `(GEF)`. -/
def docGefStrict : Document := ⟨"x (GEF) y".toList, "adam", false, some gefDb⟩

/-- Permissive-policy document whose content mentions `(GEF)`. -/
def docGefPerm : Document := ⟨"x (GEF) y".toList, "adam", true, some gefDb⟩

/-- Unrecognized database format, but no candidate in the content. -/
def docNoCand : Document := ⟨"hello".toList, "bogus", false, some "X\ty\n".toList⟩

/-- Unrecognized database format and no imported database, and no
candidate in the content. -/
def docNoCandNoDb : Document := ⟨"hello".toList, "bogus", false, none⟩

/-- Unrecognized database format with one candidate in the content. -/
def docBadType : Document :=
  ⟨"see (AB) here".toList, "bogus", false, some "X\ty\n".toList⟩

/-- Valid format but `import_database` never called, one candidate. -/
def docNoDb : Document := ⟨"see (AB) here".toList, "adam", false, none⟩

/-- Well-configured document whose single candidate has one match. -/
def docFrame : Document := ⟨"(AB)".toList, "adam", false, some "AB\tfoo\n".toList⟩

/-- Well-configured document whose single candidate has no match. -/
def docEmptyMatch : Document :=
  ⟨"(AB)".toList, "adam", false, some "XY\tz\n".toList⟩

/-! ## Lemmas about the line grep -/

theorem splitAtNL_eq_none {s : List Char} : splitAtNL s = none ↔ '\n' ∉ s := by
  induction s with
  | nil => simp [splitAtNL]
  | cons c rest ih =>
    by_cases hc : c = '\n'
    · subst hc
      simp [splitAtNL]
    · simp [splitAtNL, hc, Option.map_eq_none', ih, Ne.symm hc]

theorem splitAtNL_eq_some :
    ∀ {s m r : List Char}, splitAtNL s = some (m, r) →
      s = m ++ '\n' :: r ∧ '\n' ∉ m := by
  intro s
  induction s with
  | nil => intro m r h; simp [splitAtNL] at h
  | cons c rest ih =>
    intro m r h
    by_cases hc : c = '\n'
    · subst hc
      simp [splitAtNL] at h
      obtain ⟨hm, hr⟩ := h
      subst hm; subst hr
      simp
    · simp [splitAtNL, hc, Option.map_eq_some', Prod.ext_iff] at h
      obtain ⟨m1, hsplit, hm⟩ := h
      obtain ⟨hrest, hnm⟩ := ih hsplit
      subst hm
      subst hrest
      constructor
      · simp
      · simp [hnm, Ne.symm hc]

theorem splitAtNL_append {m : List Char} (v : List Char) (h : '\n' ∉ m) :
    splitAtNL (m ++ '\n' :: v) = some (m, v) := by
  induction m with
  | nil => simp [splitAtNL]
  | cons a m1 ih =>
    have ha : a ≠ '\n' := by
      intro hc; exact h (by simp [hc])
    have hm1 : '\n' ∉ m1 := by
      intro hc; exact h (by simp [hc])
    simp [splitAtNL, ha, ih hm1]

theorem splitAtNL_length {s m r : List Char} (h : splitAtNL s = some (m, r)) :
    r.length < s.length := by
  obtain ⟨hs, -⟩ := splitAtNL_eq_some h
  subst hs
  simp [List.length_append]
  omega

theorem grepScanFuel_congr (pre : List Char) :
    ∀ (n1 : Nat), ∀ {n2 : Nat} {s : List Char}, s.length ≤ n1 → s.length ≤ n2 →
      grepScanFuel pre n1 s = grepScanFuel pre n2 s := by
  intro n1
  induction n1 with
  | zero =>
    intro n2 s h1 h2
    have hs : s = [] := List.eq_nil_of_length_eq_zero (Nat.le_zero.mp h1)
    subst hs
    cases n2 <;> simp [grepScanFuel, splitAtNL]
  | succ k ih =>
    intro n2 s h1 h2
    cases hsplit : splitAtNL s with
    | none =>
      cases hs : s with
      | nil => cases n2 <;> simp [grepScanFuel, splitAtNL]
      | cons c rest =>
        subst hs
        cases n2 with
        | zero => simp at h2
        | succ j => simp [grepScanFuel, hsplit]
    | some p =>
      obtain ⟨m, r⟩ := p
      have hlen := splitAtNL_length hsplit
      cases n2 with
      | zero =>
        have : s = [] := List.eq_nil_of_length_eq_zero (Nat.le_zero.mp h2)
        subst this
        simp [splitAtNL] at hsplit
      | succ j =>
        have hr1 : r.length ≤ k := by omega
        have hr2 : r.length ≤ j := by omega
        simp only [grepScanFuel, hsplit]
        rw [ih hr1 hr2]

theorem grepScan_eq_nil {pre s : List Char} (h : splitAtNL s = none) :
    grepScan pre s = [] := by
  cases hs : s with
  | nil => rfl
  | cons c rest =>
    subst hs
    simp [grepScan, grepScanFuel, h]

theorem grepScan_eq_split {pre s m r : List Char} (h : splitAtNL s = some (m, r)) :
    grepScan pre s =
      if ciStartsWith pre (m ++ ['\n']) then (m ++ ['\n']) :: grepScan pre r
      else grepScan pre r := by
  have hlen := splitAtNL_length h
  cases hs : s with
  | nil => subst hs; simp [splitAtNL] at h
  | cons c rest =>
    subst hs
    simp only [grepScan, List.length_cons, grepScanFuel, h]
    have hfuel : grepScanFuel pre (rest.length) r = grepScanFuel pre r.length r := by
      apply grepScanFuel_congr
      · simp at hlen; omega
      · exact Nat.le_refl _
    rw [hfuel]

theorem grepScanFuel_mem {pre : List Char} :
    ∀ (n : Nat) {s l : List Char}, l ∈ grepScanFuel pre n s →
      IsDbLine s l ∧ ciStartsWith pre l = true := by
  intro n
  induction n with
  | zero => intro s l h; simp [grepScanFuel] at h
  | succ k ih =>
    intro s l h
    cases hsplit : splitAtNL s with
    | none => simp [grepScanFuel, hsplit] at h
    | some p =>
      obtain ⟨m, r⟩ := p
      obtain ⟨hs, hnm⟩ := splitAtNL_eq_some hsplit
      subst hs
      simp only [grepScanFuel, hsplit] at h
      by_cases hpre : ciStartsWith pre (m ++ ['\n']) = true
      · rw [if_pos hpre] at h
        rcases List.mem_cons.mp h with heq | hmem
        · subst heq
          exact ⟨IsDbLine.head m r hnm, hpre⟩
        · obtain ⟨hline, hstart⟩ := ih hmem
          exact ⟨IsDbLine.tail m r l hnm hline, hstart⟩
      · rw [if_neg hpre] at h
        obtain ⟨hline, hstart⟩ := ih h
        exact ⟨IsDbLine.tail m r l hnm hline, hstart⟩

theorem grepScan_mem {pre s l : List Char} :
    l ∈ grepScan pre s ↔ IsDbLine s l ∧ ciStartsWith pre l = true := by
  constructor
  · intro h
    exact grepScanFuel_mem s.length h
  · rintro ⟨hline, hstart⟩
    induction hline with
    | head m v hnm =>
      rw [grepScan_eq_split (splitAtNL_append v hnm), if_pos hstart]
      exact List.mem_cons_self _ _
    | tail m v l hnm hline ih =>
      rw [grepScan_eq_split (splitAtNL_append v hnm)]
      by_cases hpre : ciStartsWith pre (m ++ ['\n']) = true
      · rw [if_pos hpre]
        exact List.mem_cons_of_mem _ (ih hstart)
      · rw [if_neg hpre]
        exact ih hstart

theorem IsDbLine_shape {s l : List Char} (h : IsDbLine s l) :
    ∃ m, l = m ++ ['\n'] := by
  induction h with
  | head m v hnm => exact ⟨m, rfl⟩
  | tail m v l hnm hline ih => exact ih

theorem grepScan_append_aux {pre t : List Char} (ht : '\n' ∉ t) :
    ∀ (n : Nat) {s : List Char}, s.length ≤ n →
      grepScan pre (s ++ t) = grepScan pre s := by
  intro n
  induction n with
  | zero =>
    intro s h
    have hs : s = [] := List.eq_nil_of_length_eq_zero (Nat.le_zero.mp h)
    subst hs
    rw [List.nil_append, grepScan_eq_nil (splitAtNL_eq_none.mpr ht)]
    rfl
  | succ k ih =>
    intro s h
    cases hsplit : splitAtNL s with
    | none =>
      have hns : '\n' ∉ s := splitAtNL_eq_none.mp hsplit
      have hnst : '\n' ∉ s ++ t := by
        simp [List.mem_append, hns, ht]
      rw [grepScan_eq_nil (splitAtNL_eq_none.mpr hnst),
        grepScan_eq_nil hsplit]
    | some p =>
      obtain ⟨m, r⟩ := p
      obtain ⟨hs, hnm⟩ := splitAtNL_eq_some hsplit
      have hlen := splitAtNL_length hsplit
      subst hs
      have hsplit2 : splitAtNL ((m ++ '\n' :: r) ++ t) = some (m, r ++ t) := by
        rw [List.append_assoc, List.cons_append]
        exact splitAtNL_append (r ++ t) hnm
      rw [grepScan_eq_split hsplit2, grepScan_eq_split hsplit]
      have hr : r.length ≤ k := by
        simp [List.length_append] at h
        omega
      rw [ih hr]

/-! ## Lemmas about the candidate extractor -/

theorem isAsciiLetter_not_isDigit {c : Char} (h : isAsciiLetter c = true) :
    isDigit c = false := by
  simp [isAsciiLetter, Bool.or_eq_true, Bool.and_eq_true, decide_eq_true_eq] at h
  simp [isDigit, Bool.and_eq_true, decide_eq_true_eq]
  omega

theorem takeWhile_exact {p : Char → Bool} :
    ∀ (ds : List Char) (c : Char) (rest : List Char),
      (∀ a ∈ ds, p a = true) → p c = false →
      (ds ++ c :: rest).takeWhile p = ds ∧ (ds ++ c :: rest).dropWhile p = c :: rest := by
  intro ds
  induction ds with
  | nil =>
    intro c rest hds hc
    simp [List.takeWhile, List.dropWhile, hc]
  | cons a ds1 ih =>
    intro c rest hds hc
    have ha : p a = true := hds a (by simp)
    have hds1 : ∀ x ∈ ds1, p x = true := fun x hx => hds x (by simp [hx])
    obtain ⟨ht, hd⟩ := ih c rest hds1 hc
    simp [List.takeWhile, List.dropWhile, ha, ht, hd]

theorem matchParen_shaped (ds : List Char) (c : Char) (ws v : List Char)
    (hds : ∀ a ∈ ds, isDigit a = true) (hc : isAsciiLetter c = true)
    (hws : ∀ a ∈ ws, isWordChar a = true) :
    matchParen (ds ++ c :: (ws ++ ')' :: v)) = some (ds ++ c :: ws) := by
  obtain ⟨ht1, hd1⟩ :=
    takeWhile_exact ds c (ws ++ ')' :: v) hds (isAsciiLetter_not_isDigit hc)
  obtain ⟨ht2, hd2⟩ := takeWhile_exact ws ')' v hws (by decide)
  simp [matchParen, ht1, hd1, ht2, hd2, hc]

theorem matchParen_some {s g : List Char} (h : matchParen s = some g) :
    ∃ c, c ∈ g ∧ isAsciiLetter c = true := by
  simp only [matchParen] at h
  split at h
  · exact absurd h (by simp)
  · rename_i c rest2 heq
    split at h
    · rename_i hc
      split at h
      · rename_i rest3 heq2
        injection h with h1
        exact ⟨c, by simp [← h1], hc⟩
      · exact absurd h (by simp)
    · exact absurd h (by simp)

theorem findAbbrScan_mem_of :
    ∀ (u : List Char) {s g : List Char}, matchParen s = some g →
      g ∈ findAbbrScan (u ++ '(' :: s) := by
  intro u
  induction u with
  | nil =>
    intro s g h
    simp [findAbbrScan, h]
  | cons a u1 ih =>
    intro s g h
    by_cases ha : a = '('
    · subst ha
      simp only [List.cons_append, findAbbrScan, beq_self_eq_true, if_true]
      cases hm : matchParen (u1 ++ '(' :: s) with
      | some g2 => exact List.mem_cons_of_mem _ (ih h)
      | none => exact ih h
    · simp only [List.cons_append, findAbbrScan]
      rw [if_neg (by simp [ha])]
      exact ih h

theorem findAbbrScan_letter :
    ∀ {content g : List Char}, g ∈ findAbbrScan content →
      ∃ c, c ∈ g ∧ isAsciiLetter c = true := by
  intro content
  induction content with
  | nil => intro g h; simp [findAbbrScan] at h
  | cons a rest ih =>
    intro g h
    simp only [findAbbrScan] at h
    by_cases ha : a = '('
    · rw [if_pos (by simp [ha])] at h
      cases hm : matchParen rest with
      | some g2 =>
        rw [hm] at h
        rcases List.mem_cons.mp h with heq | hmem
        · subst heq
          exact matchParen_some hm
        · exact ih hmem
      | none =>
        rw [hm] at h
        exact ih h
    · rw [if_neg (by simp [ha])] at h
      exact ih h

theorem find_abbr_mem {plurals : List Char → List (List Char)}
    {content y : List Char} :
    y ∈ find_abbr plurals content ↔
      ∃ m, m ∈ findAbbrScan content ∧ y ∈ plurals m := by
  simp [find_abbr, List.mem_dedup, List.mem_flatMap]

/-! ## Lemmas about the markup normalizer -/

theorem dropThroughGt_none :
    ∀ {s : List Char}, dropThroughGt s = none ↔ '>' ∉ s := by
  intro s
  induction s with
  | nil => simp [dropThroughGt]
  | cons c rest ih =>
    by_cases hc : c = '>'
    · subst hc
      simp [dropThroughGt]
    · simp [dropThroughGt, hc, ih, Ne.symm hc]

theorem dropThroughGt_length :
    ∀ {s r : List Char}, dropThroughGt s = some r → r.length < s.length := by
  intro s
  induction s with
  | nil => intro r h; simp [dropThroughGt] at h
  | cons c rest ih =>
    intro r h
    by_cases hc : c = '>'
    · subst hc
      simp [dropThroughGt] at h
      subst h
      simp
    · simp [dropThroughGt, hc] at h
      exact Nat.lt_trans (ih h) (by simp)

theorem dropThroughGt_append {w : List Char} (v : List Char) (h : '>' ∉ w) :
    dropThroughGt (w ++ '>' :: v) = some v := by
  induction w with
  | nil => simp [dropThroughGt]
  | cons a w1 ih =>
    have ha : a ≠ '>' := fun hc => h (by simp [hc])
    have hw1 : '>' ∉ w1 := fun hc => h (by simp [hc])
    simp [dropThroughGt, ha, ih hw1]

theorem cleanupFuel_no_gt :
    ∀ (n : Nat) {s : List Char}, '>' ∉ s → '>' ∉ cleanupFuel n s := by
  intro n
  induction n with
  | zero => intro s h; simp [cleanupFuel]
  | succ k ih =>
    intro s h
    cases s with
    | nil => simp [cleanupFuel]
    | cons c rest =>
      have hc : c ≠ '>' := fun hc => h (by simp [hc])
      have hrest : '>' ∉ rest := fun hc => h (by simp [hc])
      by_cases hlt : c = '<'
      · subst hlt
        simp only [cleanupFuel, beq_self_eq_true, if_true]
        cases hdrop : dropThroughGt rest with
        | some rest2 =>
          exact absurd hdrop (by simp [dropThroughGt_none.mpr hrest])
        | none =>
          intro hmem
          rcases List.mem_cons.mp hmem with heq | hmem2
          · exact hc heq.symm
          · exact ih hrest hmem2
      · simp only [cleanupFuel]
        rw [if_neg (by simp [hlt])]
        intro hmem
        rcases List.mem_cons.mp hmem with heq | hmem2
        · exact hc heq.symm
        · exact ih hrest hmem2

theorem cleanupFuel_no_tag :
    ∀ (n : Nat) (s : List Char), hasTagDelim (cleanupFuel n s) = false := by
  intro n
  induction n with
  | zero => intro s; simp [cleanupFuel, hasTagDelim]
  | succ k ih =>
    intro s
    cases s with
    | nil => simp [cleanupFuel, hasTagDelim]
    | cons c rest =>
      by_cases hlt : c = '<'
      · subst hlt
        simp only [cleanupFuel, beq_self_eq_true, if_true]
        cases hdrop : dropThroughGt rest with
        | some rest2 =>
          simp [hasTagDelim, ih]
        | none =>
          have hrest : '>' ∉ rest := dropThroughGt_none.mp hdrop
          have hout : '>' ∉ cleanupFuel k rest := cleanupFuel_no_gt k hrest
          simp [hasTagDelim, ih, hout]
      · simp only [cleanupFuel]
        rw [if_neg (by simp [hlt])]
        simp [hasTagDelim, ih, hlt]

theorem cleanupFuel_congr :
    ∀ (n1 n2 : Nat) (s : List Char), s.length ≤ n1 → s.length ≤ n2 →
      cleanupFuel n1 s = cleanupFuel n2 s := by
  intro n1
  induction n1 with
  | zero =>
    intro n2 s h1 h2
    have hs : s = [] := List.eq_nil_of_length_eq_zero (Nat.le_zero.mp h1)
    subst hs
    cases n2 <;> simp [cleanupFuel]
  | succ k ih =>
    intro n2 s h1 h2
    cases s with
    | nil => cases n2 <;> simp [cleanupFuel]
    | cons c rest =>
      cases n2 with
      | zero => simp at h2
      | succ j =>
        simp only [List.length_cons] at h1 h2
        by_cases hlt : c = '<'
        · subst hlt
          cases hdrop : dropThroughGt rest with
          | some rest2 =>
            have hlen := dropThroughGt_length hdrop
            simp only [cleanupFuel, beq_self_eq_true, if_true, hdrop]
            rw [ih j rest2 (by omega) (by omega)]
          | none =>
            simp only [cleanupFuel, beq_self_eq_true, if_true, hdrop]
            rw [ih j rest (by omega) (by omega)]
        · simp only [cleanupFuel]
          rw [if_neg (by simp [hlt]), if_neg (by simp [hlt]),
            ih j rest (by omega) (by omega)]

theorem cleanup_cons_tag {rest rest2 : List Char}
    (h : dropThroughGt rest = some rest2) :
    cleanup ('<' :: rest) = ' ' :: cleanup rest2 := by
  have hlen := dropThroughGt_length h
  simp only [cleanup, List.length_cons, cleanupFuel, beq_self_eq_true, if_true, h]
  rw [cleanupFuel_congr rest.length rest2.length rest2 (by omega) (Nat.le_refl _)]

theorem cleanup_cons_nomatch {c : Char} {rest : List Char}
    (h : c = '<' → dropThroughGt rest = none) :
    cleanup (c :: rest) = c :: cleanup rest := by
  by_cases hlt : c = '<'
  · subst hlt
    simp only [cleanup, List.length_cons, cleanupFuel, beq_self_eq_true, if_true,
      h rfl]
  · simp only [cleanup, List.length_cons, cleanupFuel]
    rw [if_neg (by simp [hlt])]

theorem cleanup_span {u w v : List Char} (hu : '<' ∉ u) (hw : '>' ∉ w) :
    cleanup (u ++ '<' :: (w ++ '>' :: v)) = u ++ ' ' :: cleanup v := by
  induction u with
  | nil =>
    simp only [List.nil_append]
    rw [cleanup_cons_tag (dropThroughGt_append v hw)]
  | cons a u1 ih =>
    have ha : a ≠ '<' := fun hc => hu (by simp [hc])
    have hu1 : '<' ∉ u1 := fun hc => hu (by simp [hc])
    simp only [List.cons_append]
    rw [cleanup_cons_nomatch (fun hc => absurd hc ha), ih hu1]

/-! ## Lemmas about `search_database` -/

theorem searchLoopS_ok {α β : Type} {reg : String → Option (ParserCfg α β)}
    {d : Document} {cfg : ParserCfg α β} {db : List Char}
    (hreg : reg d.db_type = some cfg) (hdb : d.abbreviations = some db) :
    ∀ l, searchLoopS reg d l =
      .ok (l.map (fun a =>
        (a, cfg.engine
          (grepScan (if d.permissive then a else a ++ cfg.delimiter) db))), d) := by
  intro l
  induction l with
  | nil => rfl
  | cons abbr rest ih =>
    by_cases hperm : d.permissive = true
    · simp [searchLoopS, hperm, hreg, hdb, ih]
    · simp [searchLoopS, hperm, hreg, hdb, ih]

theorem searchLoopS_state {α β : Type} {reg : String → Option (ParserCfg α β)}
    {d : Document} :
    ∀ (l : List (List Char)) (r : List (List Char × List (α × β))) (d2 : Document),
      searchLoopS reg d l = .ok (r, d2) → d2 = d := by
  intro l
  induction l with
  | nil =>
    intro r d2 h
    simp only [searchLoopS] at h
    injection h with h1
    exact (congrArg Prod.snd h1).symm
  | cons abbr rest ih =>
    intro r d2 h
    simp only [searchLoopS] at h
    by_cases hperm : d.permissive = true
    · simp only [hperm, if_true] at h
      cases habb : d.abbreviations with
      | none => rw [habb] at h; exact absurd h (by simp)
      | some db =>
        rw [habb] at h
        cases hreg : reg d.db_type with
        | none => rw [hreg] at h; exact absurd h (by simp)
        | some cfg =>
          rw [hreg] at h
          cases hrec : searchLoopS reg d rest with
          | error e => rw [hrec] at h; exact absurd h (by simp)
          | ok p =>
            obtain ⟨tl, d3⟩ := p
            rw [hrec] at h
            simp only [] at h
            injection h with h1
            have hd3 : d3 = d2 := congrArg Prod.snd h1
            exact hd3 ▸ ih tl d3 hrec
    · simp only [hperm, if_false, Bool.not_eq_true] at h
      rw [if_neg (by simp [hperm])] at h
      cases hreg : reg d.db_type with
      | none => rw [hreg] at h; exact absurd h (by simp)
      | some cfg =>
        rw [hreg] at h
        cases habb : d.abbreviations with
        | none => rw [habb] at h; exact absurd h (by simp)
        | some db =>
          rw [habb] at h
          cases hrec : searchLoopS reg d rest with
          | error e => rw [hrec] at h; exact absurd h (by simp)
          | ok p =>
            obtain ⟨tl, d3⟩ := p
            rw [hrec] at h
            simp only [] at h
            injection h with h1
            have hd3 : d3 = d2 := congrArg Prod.snd h1
            exact hd3 ▸ ih tl d3 hrec

theorem searchLoopS_bad_type {α β : Type} {reg : String → Option (ParserCfg α β)}
    {d : Document} (hreg : reg d.db_type = none) :
    ∀ (abbr : List Char) (rest : List (List Char)),
      isError (searchLoopS reg d (abbr :: rest)) = true := by
  intro abbr rest
  by_cases hperm : d.permissive = true
  · cases habb : d.abbreviations with
    | none => simp [searchLoopS, hperm, habb, isError]
    | some db => simp [searchLoopS, hperm, habb, hreg, isError]
  · simp [searchLoopS, hperm, hreg, isError]

theorem searchLoopS_no_db {α β : Type} {reg : String → Option (ParserCfg α β)}
    {d : Document} (habb : d.abbreviations = none) :
    ∀ (abbr : List Char) (rest : List (List Char)),
      isError (searchLoopS reg d (abbr :: rest)) = true := by
  intro abbr rest
  by_cases hperm : d.permissive = true
  · simp [searchLoopS, hperm, habb, isError]
  · cases hreg : reg d.db_type with
    | none => simp [searchLoopS, hperm, hreg, isError]
    | some cfg => simp [searchLoopS, hperm, hreg, habb, isError]

theorem parsersFor_adam {α β : Type} (adamEngine : List (List Char) → List (α × β)) :
    parsersFor adamEngine "adam" = some ⟨adamEngine, ['\t']⟩ := rfl

theorem parsersFor_other {α β : Type} (adamEngine : List (List Char) → List (α × β))
    {t : String} (h : t ≠ "adam") : parsersFor adamEngine t = none := by
  simp [parsersFor, h]

/-! ## The claims -/

/-- C1: with the strict (non-permissive) policy, `search_database`'s grep
matches exactly the newline-terminated database lines that begin — at line
start, case-insensitively — with the candidate `C` immediately followed by
the configured tab delimiter; with the permissive policy, exactly the lines
beginning with `C` itself, with no delimiter requirement.  (The newline-free
hypothesis on the candidate is what makes the line-scanner embedding of the
`re.MULTILINE` regex faithful; every candidate the extractor produces is
made of word characters and satisfies it.) -/
theorem claim1_match_policies (C db l : List Char) (hC : '\n' ∉ C) :
    (l ∈ grepScan (C ++ ['\t']) db ↔
      IsDbLine db l ∧ ciStartsWith (C ++ ['\t']) l = true) ∧
    (l ∈ grepScan C db ↔ IsDbLine db l ∧ ciStartsWith C l = true) :=
  ⟨grepScan_mem, grepScan_mem⟩

/-- Witness for C1, at the spec's own example: for database text
`"GEF\tfoo\nGEFS\tbar\n"`, a strict search for `GEF` matches only the first
line, while a permissive search for `GEF` matches both. -/
theorem claim1_witness :
    search_database idPl listEngine docGefStrict =
      .ok ([("GEF".toList, [(0, "GEF\tfoo\n".toList)])], docGefStrict) ∧
    search_database idPl listEngine docGefPerm =
      .ok ([("GEF".toList,
        [(0, "GEF\tfoo\n".toList), (0, "GEFS\tbar\n".toList)])], docGefPerm) ∧
    ("GEFS\tbar\n".toList ∈ grepScan ("GEF".toList ++ ['\t']) gefDb ↔
      IsDbLine gefDb "GEFS\tbar\n".toList ∧
        ciStartsWith ("GEF".toList ++ ['\t']) "GEFS\tbar\n".toList = true) :=
  ⟨rfl, rfl,
    (claim1_match_policies "GEF".toList gefDb "GEFS\tbar\n".toList (by decide)).1⟩

/-- C2: a purely numeric parenthetical `(N)` is never extracted: every raw
regex match of the extractor contains a letter, so a digits-only string is
never among the matches, and every candidate `find_abbr` produces is a
`plurals`-variant of some letter-containing match (never of `N`). -/
theorem claim2_no_numeric_candidates (plurals : List Char → List (List Char))
    (content N : List Char) (hN : ∀ a ∈ N, isDigit a = true) :
    N ∉ findAbbrScan content ∧
    ∀ y ∈ find_abbr plurals content,
      ∃ m, m ∈ findAbbrScan content ∧ y ∈ plurals m ∧
        ∃ c, c ∈ m ∧ isAsciiLetter c = true := by
  constructor
  · intro hmem
    obtain ⟨c, hcg, hletter⟩ := findAbbrScan_letter hmem
    have hnd := isAsciiLetter_not_isDigit hletter
    rw [hN c hcg] at hnd
    simp at hnd
  · intro y hy
    obtain ⟨m, hm, hym⟩ := find_abbr_mem.mp hy
    exact ⟨m, hm, hym, findAbbrScan_letter hm⟩

/-- Witness for C2: in `"(12) (ab)"`, the digits-only parenthetical content
`12` is not among the extractor's raw matches. -/
theorem claim2_witness :
    "12".toList ∉ findAbbrScan "(12) (ab)".toList :=
  (claim2_no_numeric_candidates idPl "(12) (ab)".toList "12".toList (by decide)).1

/-- C3 counterexample: `(a-b)` is a parenthetical substring whose content
contains a letter, yet `find_abbr` (here with the minimal pluralizer, so
all variants of `a-b` are `a-b` itself) extracts nothing from it, because
`-` is not a word character and the extractor's pattern requires the whole
content to be digits, then a letter, then word characters. -/
theorem claim3_counterexample :
    "(a-b)".toList = ['('] ++ "a-b".toList ++ [')'] ∧
    (∃ c, c ∈ "a-b".toList ∧ isAsciiLetter c = true) ∧
    find_abbr idPl "(a-b)".toList = [] :=
  ⟨by decide, ⟨'a', by decide, by decide⟩, by decide⟩

/-- C3 (amended): for every parenthetical substring `(X)` of the content
whose interior `X` has the extractor's shape — a possibly empty run of
digits, then one letter, then word characters — every `plurals`-variant of
`X` (which, by the pluralizer's contract, includes `X` itself) is in the
candidate set returned by `find_abbr`. -/
theorem claim3_shape_extracted (plurals : List Char → List (List Char))
    (u ds : List Char) (c : Char) (ws v y : List Char)
    (hds : ∀ a ∈ ds, isDigit a = true) (hc : isAsciiLetter c = true)
    (hws : ∀ a ∈ ws, isWordChar a = true)
    (hy : y ∈ plurals (ds ++ c :: ws)) :
    y ∈ find_abbr plurals (u ++ '(' :: ((ds ++ c :: ws) ++ ')' :: v)) := by
  apply find_abbr_mem.mpr
  refine ⟨ds ++ c :: ws, ?_, hy⟩
  have heq : (ds ++ c :: ws) ++ ')' :: v = ds ++ c :: (ws ++ ')' :: v) := by
    simp
  rw [heq]
  exact findAbbrScan_mem_of u (matchParen_shaped ds c ws v hds hc hws)

/-- Witness for C3 (amended): from `"(1ab)"`, the candidate `1ab` is
extracted. -/
theorem claim3_witness :
    ['1', 'a', 'b'] ∈ find_abbr idPl ['(', '1', 'a', 'b', ')'] := by
  have h := claim3_shape_extracted idPl [] ['1'] 'a' ['b'] [] ['1', 'a', 'b']
    (by decide) (by decide) (by decide) (by decide)
  simpa using h

/-- C4: the output of `cleanup` never contains a recognizable tag span —
no `'<'` in the output is ever followed by a `'>'` — and each
tag-delimited span of the input is replaced by exactly one space, with the
surrounding characters returned unchanged. -/
theorem claim4_no_tag_spans (data u w v : List Char) :
    hasTagDelim (cleanup data) = false ∧
    ('<' ∉ u → '>' ∉ w →
      cleanup (u ++ '<' :: (w ++ '>' :: v)) = u ++ ' ' :: cleanup v) :=
  ⟨cleanupFuel_no_tag data.length data, fun hu hw => cleanup_span hu hw⟩

/-- Witness for C4: `"a<b>c"` cleans to `"a c"`, which has no tag span. -/
theorem claim4_witness :
    hasTagDelim (cleanup ['a', '<', 'b', '>', 'c']) = false ∧
    cleanup ['a', '<', 'b', '>', 'c'] = ['a', ' ', 'c'] := by
  have h := claim4_no_tag_spans ['a', '<', 'b', '>', 'c'] ['a'] ['b'] ['c']
  have h2 := h.2 (by decide) (by decide)
  simp only [List.cons_append, List.nil_append] at h2
  exact ⟨h.1, by rw [h2]; rfl⟩

/-- C5 counterexample: an instance built with the unrecognized database
format `"bogus"` whose document yields no candidates.  Construction does
not fail (`__init__` never validates `db_type`), and the first call to
`search_database` succeeds, returning the empty result set — so the
configuration error is not surfaced at construction or at first search. -/
theorem claim5_counterexample :
    docNoCand.db_type ≠ "adam" ∧
    search_database idPl listEngine docNoCand = .ok ([], docNoCand) :=
  ⟨by decide, rfl⟩

/-- C5 (amended): with an unrecognized database-format identifier,
`search_database` fails (with a `KeyError`) whenever at least one candidate
was extracted, so it never returns a partial result set for a non-empty
candidate set; with no candidates it silently returns the empty result
set, and construction never fails. -/
theorem claim5_fail_fast {α β : Type} (plurals : List Char → List (List Char))
    (adamEngine : List (List Char) → List (α × β)) (d : Document)
    (htype : d.db_type ≠ "adam")
    (hcand : find_abbr plurals d.content ≠ []) :
    isError (search_database plurals adamEngine d) = true := by
  unfold search_database
  cases hl : find_abbr plurals d.content with
  | nil => exact absurd hl hcand
  | cons a rest =>
    exact searchLoopS_bad_type (parsersFor_other adamEngine htype) a rest

/-- Witness for C5 (amended): format `"bogus"` with one candidate fails. -/
theorem claim5_witness :
    isError (search_database idPl listEngine docBadType) = true :=
  claim5_fail_fast idPl listEngine docBadType (by decide) (by decide)

/-- C6: a candidate whose grep yields no matching lines still receives an
entry in the result map, and — given an engine that maps the empty line
list to the empty list, per its contract — that entry is the empty ranked
list; no error is raised and no candidate's key is missing. -/
theorem claim6_empty_ranked_entry {α β : Type}
    (plurals : List Char → List (List Char))
    (adamEngine : List (List Char) → List (α × β)) (d : Document)
    (db a : List Char)
    (htype : d.db_type = "adam") (hdb : d.abbreviations = some db)
    (hengine : adamEngine [] = [])
    (ha : a ∈ find_abbr plurals d.content)
    (hmatch : grepScan (if d.permissive then a else a ++ ['\t']) db = []) :
    ∃ m, search_database plurals adamEngine d = .ok (m, d) ∧
      (a, ([] : List (α × β))) ∈ m ∧
      ∀ b ∈ find_abbr plurals d.content, ∃ es, (b, es) ∈ m := by
  have hreg : parsersFor adamEngine d.db_type = some ⟨adamEngine, ['\t']⟩ := by
    rw [htype]
    rfl
  refine ⟨_, searchLoopS_ok hreg hdb (find_abbr plurals d.content), ?_, ?_⟩
  · have hmem : (a, adamEngine (grepScan (if d.permissive then a
        else a ++ ['\t']) db)) ∈
        (find_abbr plurals d.content).map (fun b =>
          (b, adamEngine (grepScan (if d.permissive then b
            else b ++ ['\t']) db))) :=
      List.mem_map_of_mem _ ha
    rw [hmatch, hengine] at hmem
    exact hmem
  · intro b hb
    exact ⟨_, List.mem_map_of_mem _ hb⟩

/-- Witness for C6: candidate `AB` against database `"XY\tz\n"` gets the
entry `(AB, [])` in a successful result map. -/
theorem claim6_witness :
    ∃ m, search_database idPl listEngine docEmptyMatch = .ok (m, docEmptyMatch) ∧
      ("AB".toList, ([] : List (Nat × List Char))) ∈ m ∧
      ∀ b ∈ find_abbr idPl docEmptyMatch.content, ∃ es, (b, es) ∈ m :=
  claim6_empty_ranked_entry idPl listEngine docEmptyMatch "XY\tz\n".toList
    "AB".toList rfl rfl rfl (by decide) (by decide)

/-- C7: on a non-empty ranked entry list, `get_top` returns exactly the
structured-fields component of the first (highest-scored) entry; on the
empty list it signals a well-defined `IndexError` (from `abbr_match[0]`),
never a silent default. -/
theorem claim7_get_top {α β : Type} (l : List (α × β)) :
    (∀ (e : α × β) (rest : List (α × β)), l = e :: rest → get_top l = .ok e.2) ∧
    (l = [] → get_top l = .error .indexError) := by
  constructor
  · intro e rest h
    subst h
    rfl
  · intro h
    subst h
    rfl

/-- Witness for C7: first-entry selection and the empty-list error. -/
theorem claim7_witness :
    get_top [((5 : Nat), (7 : Nat))] = .ok 7 ∧
    get_top ([] : List (Nat × Nat)) = .error .indexError :=
  ⟨(claim7_get_top [((5 : Nat), (7 : Nat))]).1 (5, 7) [] rfl,
   (claim7_get_top ([] : List (Nat × Nat))).2 rfl⟩

/-- C8: `search_database` leaves the document content and the database
text unchanged: whenever it returns, the final instance state carries the
same `content` and `abbreviations` as the initial state (the loop threads
the state and never writes to it). -/
theorem claim8_no_mutation {α β : Type} (plurals : List Char → List (List Char))
    (adamEngine : List (List Char) → List (α × β)) (d : Document)
    (r : List (List Char × List (α × β))) (d2 : Document)
    (h : search_database plurals adamEngine d = .ok (r, d2)) :
    d2.content = d.content ∧ d2.abbreviations = d.abbreviations := by
  have hd : d2 = d := searchLoopS_state (find_abbr plurals d.content) r d2 h
  rw [hd]
  exact ⟨rfl, rfl⟩

/-- Witness for C8: a concrete successful search returns the state it
started from. -/
theorem claim8_witness :
    docFrame.content = docFrame.content ∧
    docFrame.abbreviations = docFrame.abbreviations :=
  claim8_no_mutation idPl listEngine docFrame
    [("AB".toList, [(0, "AB\tfoo\n".toList)])] docFrame rfl

/-- C9: under both match policies, only newline-terminated lines are ever
matched: appending a newline-free final segment to the database text never
changes the grep result (so a last line without a trailing newline is
never passed to the scoring engine, even if its leading token matches),
and every matched line ends with a newline. -/
theorem claim9_unterminated_line_ignored (pre db unterminated : List Char)
    (h : '\n' ∉ unterminated) :
    grepScan pre (db ++ unterminated) = grepScan pre db ∧
    ∀ l ∈ grepScan pre db, ∃ m, l = m ++ ['\n'] := by
  constructor
  · exact grepScan_append_aux h db.length (Nat.le_refl _)
  · intro l hl
    exact IsDbLine_shape (grepScan_mem.mp hl).1

/-- Witness for C9: the database text `"GEF\tfoo"` (no trailing newline)
yields no match for `GEF` even though its leading token matches. -/
theorem claim9_witness :
    grepScan ("GEF".toList ++ ['\t']) "GEF\tfoo".toList = [] := by
  have h := (claim9_unterminated_line_ignored ("GEF".toList ++ ['\t']) []
    "GEF\tfoo".toList (by decide)).1
  rw [List.nil_append] at h
  rw [h]
  rfl

/-- C10: with no extracted candidates, `search_database` returns the empty
mapping without consulting the registry or the database text, so neither
an unrecognized format identifier nor a missing `import_database` call can
raise; with at least one candidate, either condition makes the search
fail. -/
theorem claim10_empty_candidates {α β : Type}
    (plurals : List Char → List (List Char))
    (adamEngine : List (List Char) → List (α × β)) (d : Document) :
    (find_abbr plurals d.content = [] →
      search_database plurals adamEngine d = .ok ([], d)) ∧
    (find_abbr plurals d.content ≠ [] → d.db_type ≠ "adam" →
      isError (search_database plurals adamEngine d) = true) ∧
    (find_abbr plurals d.content ≠ [] → d.abbreviations = none →
      isError (search_database plurals adamEngine d) = true) := by
  refine ⟨?_, ?_, ?_⟩
  · intro h
    unfold search_database
    rw [h]
    rfl
  · intro hne htype
    unfold search_database
    cases hl : find_abbr plurals d.content with
    | nil => exact absurd hl hne
    | cons a rest =>
      exact searchLoopS_bad_type (parsersFor_other adamEngine htype) a rest
  · intro hne habb
    unfold search_database
    cases hl : find_abbr plurals d.content with
    | nil => exact absurd hl hne
    | cons a rest => exact searchLoopS_no_db habb a rest

/-- Witness for C10: no candidates with a bogus format and no imported
database still succeeds with the empty map; one candidate with a bogus
format fails; one candidate with no imported database fails. -/
theorem claim10_witness :
    search_database idPl listEngine docNoCandNoDb = .ok ([], docNoCandNoDb) ∧
    isError (search_database idPl listEngine docBadType) = true ∧
    isError (search_database idPl listEngine docNoDb) = true :=
  ⟨(claim10_empty_candidates idPl listEngine docNoCandNoDb).1 (by decide),
   (claim10_empty_candidates idPl listEngine docBadType).2.1 (by decide) (by decide),
   (claim10_empty_candidates idPl listEngine docNoDb).2.2 (by decide) (by decide)⟩
